import Mathlib

/-!
Shallow embedding of the pyk5 Kerberos crypto core (`crypto.py`) and of the
SPAKE2 test-vector driver (`spake.py`), together with theorems settling the
specification claims.

Byte strings are modelled as `List Nat`.  The external primitives supplied
by PyCrypto (the AES block cipher, the HMAC-SHA1 keyed hash and the PBKDF2
password KDF) and by the elliptic-curve module are modelled as abstract
function parameters; theorems that depend on their behaviour state the
needed facts (block-cipher inversion, length preservation, digest length)
as explicit hypotheses.
-/

/-- Byte strings: lists of naturals (each entry a byte value). -/
abbrev Bytes := List Nat

/-- Model of `_zeropad(s, padsize)`: pad `s` with zero bytes to a multiple
of `padsize`. -/
def _zeropad (s : Bytes) (padsize : Nat) : Bytes :=
  s ++ List.replicate ((padsize - s.length % padsize) % padsize) 0

/-- Model of `_xorbytes(b1, b2)`: pointwise xor of two equal-length byte
strings (the Python asserts equal length; `zipWith` agrees on that domain). -/
def _xorbytes (b1 b2 : Bytes) : Bytes :=
  List.zipWith (fun x y => x ^^^ y) b1 b2

/-- Model of `_mac_equal(mac1, mac2)`: constant-time comparison, or-folding
the pointwise xors and testing the result against zero. -/
def _mac_equal (mac1 mac2 : Bytes) : Bool :=
  (List.zipWith (fun x y => x ^^^ y) mac1 mac2).foldl (fun r x => r ||| x) 0 == 0

/-- Model of the inner `rotate_right(str, nbits)` of `_nfold`: rotate the
bytes of `s` right by `nbits` bits.  Python's negative indices `i - nbytes`
and `i - nbytes - 1` wrap modulo `len(str)`; they are written here as
additive modular indices. -/
def rotate_right (s : Bytes) (nbits : Nat) : Bytes :=
  let n := s.length
  let nb := (nbits / 8) % n
  let remain := nbits % 8
  (List.range n).map (fun i =>
    ((s.getD ((i + n - nb) % n) 0) >>> remain) |||
      (((s.getD ((i + 2 * n - nb - 1) % n) 0) <<< (8 - remain)) &&& 255))

/-- Single pass of the carry-propagation loop inside `add_ones_complement`:
`v = [(v[i-n+1] >> 8) + (v[i] & 0xff) for i in xrange(n)]`, with the Python
negative index `i - n + 1` wrapping to `(i + 1) % n`. -/
def aoc_step (v : List Nat) : List Nat :=
  let n := v.length
  (List.range n).map (fun i =>
    ((v.getD ((i + 1) % n) 0) >>> 8) + ((v.getD i 0) &&& 255))

/-- Fuelled form of the `while any(x & ~0xff for x in v)` loop of
`add_ones_complement`.  For a natural `x`, `x & ~0xff != 0` is exactly
`256 <= x`.  Every pass with the guard true strictly decreases the sum of
`v`, so fuel `sum + 1` always suffices and the fuelled loop agrees with the
Python `while` loop. -/
def aoc_loop : Nat → List Nat → List Nat
  | 0, v => v
  | fuel + 1, v => if v.any (fun x => 256 ≤ x) then aoc_loop fuel (aoc_step v) else v

/-- Model of the inner `add_ones_complement(str1, str2)` of `_nfold`:
bytewise sum followed by end-around carry propagation. -/
def add_ones_complement (s1 s2 : Bytes) : Bytes :=
  let v := List.zipWith (fun a b => a + b) s1 s2
  aoc_loop (v.sum + 1) v

/-- Model of `_nfold(str, nbytes)`: concatenate `lcm/len(str)` copies of
`str`, each rotated right by `13 * i` bits, slice the concatenation into
`nbytes`-sized chunks and fold them with ones'-complement addition
(`reduce`; on a single chunk the fold returns the chunk unchanged). -/
def _nfold (s : Bytes) (nbytes : Nat) : Bytes :=
  let slen := s.length
  let l := nbytes * slen / Nat.gcd nbytes slen
  let bigstr := ((List.range (l / slen)).map (fun i => rotate_right s (13 * i))).flatten
  let slices := (List.range (l / nbytes)).map (fun p => (bigstr.drop (p * nbytes)).take nbytes)
  match slices with
  | [] => []
  | h :: t => t.foldl add_ones_complement h

/-- Model of the `Key` class: an (enctype tag, contents) pair.  As the
source notes, the constructor does not check the length of `contents`
against the enctype. -/
structure Key where
  enctype : Nat
  contents : Bytes
deriving DecidableEq, Repr

/-- Split a byte string into 16-byte chunks, the last possibly partial:
`[s[p:p+16] for p in xrange(0, len(s), 16)]`. -/
def toBlocks16 (s : Bytes) : List Bytes :=
  if h : s = [] then []
  else s.take 16 :: toBlocks16 (s.drop 16)
termination_by s.length
decreasing_by
  simp only [List.length_drop]
  have hp : 0 < s.length := List.length_pos.mpr h
  omega

/-- CBC encryption chaining over a block list, modelling PyCrypto's
`AES.new(key, AES.MODE_CBC, iv).encrypt` in terms of the abstract
single-block cipher `E`: each ciphertext block is `E` of the plaintext
block xored with the previous ciphertext block (initially the IV). -/
def cbcEnc (E : Bytes → Bytes) (iv : Bytes) : List Bytes → List Bytes
  | [] => []
  | b :: bs => E (_xorbytes iv b) :: cbcEnc E (E (_xorbytes iv b)) bs

/-- Model of `_AESEnctype.basic_encrypt`: CBC-encrypt the zero-padded
plaintext under an all-zero IV; for plaintexts longer than one block, swap
the last two ciphertext blocks and truncate the new final block to the
length of the last partial plaintext block.  `E` is the abstract AES
single-block encryption, applied to `key.contents`. -/
def basic_encrypt (E : Bytes → Bytes → Bytes) (key : Key) (plaintext : Bytes) : Bytes :=
  let ctext := (cbcEnc (E key.contents) (List.replicate 16 0)
    (toBlocks16 (_zeropad plaintext 16))).flatten
  if 16 < plaintext.length then
    let lastlen := if plaintext.length % 16 = 0 then 16 else plaintext.length % 16
    ctext.take (ctext.length - 32) ++ ctext.drop (ctext.length - 16) ++
      ((ctext.drop (ctext.length - 32)).take 16).take lastlen
  else ctext

/-- The `for b in cblocks[:-2]` CBC-decryption loop of `basic_decrypt`,
returning the accumulated plaintext together with the final value of
`prev_cblock`. -/
def cbcDecChain (dec : Bytes → Bytes) (prev : Bytes) : List Bytes → Bytes × Bytes
  | [] => ([], prev)
  | b :: bs =>
      let rest := cbcDecChain dec b bs
      (_xorbytes (dec b) prev ++ rest.1, rest.2)

/-- Model of `_AESEnctype.basic_decrypt`: a plain block decryption for
one-block ciphertexts; otherwise CBC-decrypt all but the last two blocks,
then reassemble the swapped/truncated final blocks.  `D` is the abstract
AES single-block (ECB) decryption, applied to `key.contents`. -/
def basic_decrypt (D : Bytes → Bytes → Bytes) (key : Key) (ciphertext : Bytes) : Bytes :=
  if ciphertext.length = 16 then D key.contents ciphertext
  else
    let cblocks := toBlocks16 ciphertext
    let lastlen := (cblocks.getLastD []).length
    let chain := cbcDecChain (D key.contents) (List.replicate 16 0)
      (cblocks.take (cblocks.length - 2))
    let b := D key.contents (cblocks.getD (cblocks.length - 2) [])
    let lastplaintext := _xorbytes (b.take lastlen) (cblocks.getLastD [])
    let omitted := b.drop lastlen
    chain.1 ++ _xorbytes (D key.contents (cblocks.getLastD [] ++ omitted)) chain.2 ++
      lastplaintext

/-- Model of an enctype profile's static class attributes
(`_SimplifiedEnctype` subclass class variables). -/
structure Profile where
  enctype : Nat
  blocksize : Nat
  padsize : Nat
  macsize : Nat
  seedsize : Nat
deriving DecidableEq, Repr

/-- Model of `_AES128CTS`.  The class body sets only `seedsize = 16`; all
other attributes, including `enctype`, are inherited from `_AESEnctype`,
whose class body sets `enctype = Enctypenum.AES256_CTS` (18).  So the
`enctype` attribute of `_AES128CTS` resolves to 18, not 17. -/
def _AES128CTS : Profile :=
  { enctype := 18, blocksize := 16, padsize := 1, macsize := 12, seedsize := 16 }

/-- Model of `_AES256CTS` (`seedsize = 32`; everything else inherited from
`_AESEnctype`, in particular `enctype = 18`). -/
def _AES256CTS : Profile :=
  { enctype := 18, blocksize := 16, padsize := 1, macsize := 12, seedsize := 32 }

/-- Model of `pack('>IB', keyusage, c)`: four big-endian bytes of the usage
number followed by the one-byte constant. -/
def pack_IB (keyusage : Nat) (c : Nat) : Bytes :=
  [keyusage / 2 ^ 24 % 256, keyusage / 2 ^ 16 % 256, keyusage / 2 ^ 8 % 256,
    keyusage % 256, c % 256]

/-- Fuelled form of the `while len(rndseed) < cls.seedsize` loop of
`_SimplifiedEnctype.derive`.  Each pass appends one `basic_encrypt` output
(16 bytes for the AES profiles), so fuel `seedsize` always suffices and the
fuelled loop agrees with the Python `while` loop. -/
def deriveLoop (E : Bytes → Bytes → Bytes) (key : Key) (seedsize : Nat) :
    Nat → Bytes → Bytes → Bytes
  | 0, _, rndseed => rndseed
  | fuel + 1, plaintext, rndseed =>
      if rndseed.length < seedsize then
        let ciphertext := basic_encrypt E key plaintext
        deriveLoop E key seedsize fuel ciphertext (rndseed ++ ciphertext)
      else rndseed

/-- Model of `_SimplifiedEnctype.derive(key, constant)`: n-fold the constant
to the block size, iterate `basic_encrypt` feeding each ciphertext back in
while accumulating, truncate to `seedsize`, and wrap the result with
`cls.random_to_key`, i.e. as `Key(cls.enctype, ...)`. -/
def derive (E : Bytes → Bytes → Bytes) (cls : Profile) (key : Key) (constant : Bytes) :
    Key :=
  let plaintext := _nfold constant cls.blocksize
  let rndseed := deriveLoop E key cls.seedsize cls.seedsize plaintext []
  Key.mk cls.enctype (rndseed.take cls.seedsize)

/-- Model of `_SimplifiedEnctype.encrypt(key, keyusage, plaintext,
confounder)` on the explicit-confounder path (`confounder is None` draws
fresh random bytes instead; that external randomness is not modelled).
`H key msg` models `HMAC.new(key, msg, cls.hashmod).digest()`. -/
def encrypt (E H : Bytes → Bytes → Bytes) (cls : Profile) (key : Key) (keyusage : Nat)
    (plaintext confounder : Bytes) : Bytes :=
  let ki := derive E cls key (pack_IB keyusage 85)
  let ke := derive E cls key (pack_IB keyusage 170)
  let basic_plaintext := confounder ++ _zeropad plaintext cls.padsize
  let hmac := H ki.contents basic_plaintext
  basic_encrypt E ke basic_plaintext ++ hmac.take cls.macsize

/-- Model of `_SimplifiedEnctype.decrypt(key, keyusage, ciphertext)`,
returning `Except` errors for the three `ValueError` raises. -/
def decrypt (E D H : Bytes → Bytes → Bytes) (cls : Profile) (key : Key) (keyusage : Nat)
    (ciphertext : Bytes) : Except String Bytes :=
  let ki := derive E cls key (pack_IB keyusage 85)
  let ke := derive E cls key (pack_IB keyusage 170)
  if ciphertext.length < cls.blocksize + cls.macsize then
    Except.error "ciphertext too short"
  else
    let basic_ctext := ciphertext.take (ciphertext.length - cls.macsize)
    let mac := ciphertext.drop (ciphertext.length - cls.macsize)
    if basic_ctext.length % cls.padsize ≠ 0 then
      Except.error "ciphertext does not meet padding requirement"
    else
      let basic_plaintext := basic_decrypt D ke basic_ctext
      let hmac := H ki.contents basic_plaintext
      let expmac := hmac.take cls.macsize
      if ¬ _mac_equal mac expmac then Except.error "ciphertext integrity failure"
      else Except.ok (basic_plaintext.drop cls.blocksize)

/-- Model of `_get_enctype_profile`: the `_enctype_table` registers
`Enctypenum.AES128_CTS` (17) to `_AES128CTS` and `Enctypenum.AES256_CTS`
(18) to `_AES256CTS`; any other tag raises. -/
def _get_enctype_profile (enctype : Nat) : Except String Profile :=
  if enctype = 17 then Except.ok _AES128CTS
  else if enctype = 18 then Except.ok _AES256CTS
  else Except.error ("Invalid enctype " ++ toString enctype)

/-- Model of the public `random_to_key(enctype, seed)`: look up the profile,
check the seed length, and call the profile's `random_to_key` classmethod,
which returns `Key(cls.enctype, seed)`. -/
def random_to_key (enctype : Nat) (seed : Bytes) : Except String Key :=
  match _get_enctype_profile enctype with
  | Except.error e => Except.error e
  | Except.ok e =>
      if seed.length ≠ e.seedsize then Except.error "Wrong crypto seed length"
      else Except.ok (Key.mk e.enctype seed)

/-- The byte string of the literal label `"kerberos"`. -/
def kerberosConst : Bytes := [107, 101, 114, 98, 101, 114, 111, 115]

/-- Model of `unpack('>L', b)`: the 4-byte big-endian unsigned integer, or a
`struct.error` when the argument is not exactly 4 bytes. -/
def unpack_L (b : Bytes) : Except String Nat :=
  if b.length = 4 then
    Except.ok (b.getD 0 0 * 2 ^ 24 + b.getD 1 0 * 2 ^ 16 + b.getD 2 0 * 2 ^ 8 + b.getD 3 0)
  else Except.error "unpack requires a string argument of length 4"

/-- Model of `_AESEnctype.string_to_key(string, salt, params)`:
`params or '\x00\x00\x10\x00'` uses the default both when `params` is
`None` and when it is the empty (falsy) string; the 4-byte big-endian
iteration count feeds PBKDF2 (`kdf password salt dklen iterations`), the
seed is wrapped as a temporary key via `cls.random_to_key`, and `derive` is
run on it with the literal label `"kerberos"`. -/
def string_to_key_aes (E : Bytes → Bytes → Bytes)
    (kdf : Bytes → Bytes → Nat → Nat → Bytes) (cls : Profile)
    (string salt : Bytes) (params : Option Bytes) : Except String Key :=
  let pbytes := match params with
    | none => [0, 0, 16, 0]
    | some p => if p.isEmpty then [0, 0, 16, 0] else p
  match unpack_L pbytes with
  | Except.error e => Except.error e
  | Except.ok iterations =>
      let seed := kdf string salt cls.seedsize iterations
      let tkey := Key.mk cls.enctype seed
      Except.ok (derive E cls tkey kerberosConst)

/-- Model of the public `string_to_key(enctype, string, salt, params)`. -/
def string_to_key (E : Bytes → Bytes → Bytes)
    (kdf : Bytes → Bytes → Nat → Nat → Bytes) (enctype : Nat)
    (string salt : Bytes) (params : Option Bytes) : Except String Key :=
  match _get_enctype_profile enctype with
  | Except.error e => Except.error e
  | Except.ok cls => string_to_key_aes E kdf cls string salt params

/-- Model of the public `encrypt(key, keyusage, plaintext, confounder)`:
dispatch on `key.enctype`. -/
def encryptTop (E H : Bytes → Bytes → Bytes) (key : Key) (keyusage : Nat)
    (plaintext confounder : Bytes) : Except String Bytes :=
  match _get_enctype_profile key.enctype with
  | Except.error e => Except.error e
  | Except.ok cls => Except.ok (encrypt E H cls key keyusage plaintext confounder)

/-- Model of the public `decrypt(key, keyusage, ciphertext)`: dispatch on
`key.enctype`. -/
def decryptTop (E D H : Bytes → Bytes → Bytes) (key : Key) (keyusage : Nat)
    (ciphertext : Bytes) : Except String Bytes :=
  match _get_enctype_profile key.enctype with
  | Except.error e => Except.error e
  | Except.ok cls => decrypt E D H cls key keyusage ciphertext

/-- Model of a checksum profile's static attributes
(`_SimplifiedChecksum` subclass class variables). -/
structure ChecksumProfile where
  macsize : Nat
  enc : Profile
deriving DecidableEq, Repr

/-- Model of `_SHA1AES128`. -/
def _SHA1AES128 : ChecksumProfile := { macsize := 12, enc := _AES128CTS }

/-- Model of `_SHA1AES256`. -/
def _SHA1AES256 : ChecksumProfile := { macsize := 12, enc := _AES256CTS }

/-- Model of `_get_checksum_profile`: `_checksum_table` registers
`SHA1_AES128` (15) and `SHA1_AES256` (16). -/
def _get_checksum_profile (cksumtype : Nat) : Except String ChecksumProfile :=
  if cksumtype = 15 then Except.ok _SHA1AES128
  else if cksumtype = 16 then Except.ok _SHA1AES256
  else Except.error ("Invalid cksumtype " ++ toString cksumtype)

/-- Model of `_SimplifiedChecksum.checksum(key, keyusage, text)`: derive the
checksum sub-key with constant `usage || 0x99` via the associated enctype's
`derive` (as the source notes, without checking `key` against
`cls.enc.enctype`), HMAC the text under it, truncate to the MAC size. -/
def checksum (E H : Bytes → Bytes → Bytes) (c : ChecksumProfile) (key : Key)
    (keyusage : Nat) (text : Bytes) : Bytes :=
  let kc := derive E c.enc key (pack_IB keyusage 153)
  (H kc.contents text).take c.macsize

/-- Model of `_SimplifiedChecksum.verify(key, keyusage, text, cksum)`. -/
def verify (E H : Bytes → Bytes → Bytes) (c : ChecksumProfile) (key : Key)
    (keyusage : Nat) (text cksum : Bytes) : Except String Unit :=
  let expected := checksum E H c key keyusage text
  if ¬ _mac_equal cksum expected then Except.error "checksum verification failure"
  else Except.ok ()

/-- Model of the public `make_checksum(cksumtype, key, keyusage, text)`. -/
def make_checksum (E H : Bytes → Bytes → Bytes) (cksumtype : Nat) (key : Key)
    (keyusage : Nat) (text : Bytes) : Except String Bytes :=
  match _get_checksum_profile cksumtype with
  | Except.error e => Except.error e
  | Except.ok c => Except.ok (checksum E H c key keyusage text)

/-- Model of the public `verify_checksum(cksumtype, key, keyusage, text,
cksum)`. -/
def verify_checksum (E H : Bytes → Bytes → Bytes) (cksumtype : Nat) (key : Key)
    (keyusage : Nat) (text cksum : Bytes) : Except String Unit :=
  match _get_checksum_profile cksumtype with
  | Except.error e => Except.error e
  | Except.ok c => verify E H c key keyusage text cksum

/-- The transcript key-usage number of `spake.py`
(`KEY_USAGE_SPAKE_TRANSCRIPT = 65`). -/
def KEY_USAGE_SPAKE_TRANSCRIPT : Nat := 65

/-- Model of `update_checksum(cksumtype, key, cksum, b)` of `spake.py`:
`make_checksum(cksumtype, key, KEY_USAGE_SPAKE_TRANSCRIPT, cksum + b)`. -/
def update_checksum (E H : Bytes → Bytes → Bytes) (cksumtype : Nat) (key : Key)
    (cksum b : Bytes) : Except String Bytes :=
  make_checksum E H cksumtype key KEY_USAGE_SPAKE_TRANSCRIPT (cksum ++ b)

/-- The four kinds of transcript-checksum updates performed by the
`vectors` routine of `spake.py`. -/
inductive TEvent where
  | optimistic
  | support
  | challenge
  | pubkey
deriving DecidableEq, Repr

/-- The transcript-checksum update sequence of `vectors(...)` in
`spake.py`: `if rejected_challenge:` fold in the previously-sent optimistic
challenge (Python truthiness: `None` and the empty string both skip);
`if not skip_support:` fold in the encoded support message; then always the
encoded challenge message, then always the raw encoded peer public point.
Each update is recorded with the bytes that are folded into the checksum. -/
def transcriptUpdates (skip_support : Bool) (rejected_challenge : Option Bytes)
    (support challenge pubkeyS : Bytes) : List (TEvent × Bytes) :=
  (match rejected_challenge with
   | some r => if r.isEmpty then [] else [(TEvent.optimistic, r)]
   | none => []) ++
  (if skip_support then [] else [(TEvent.support, support)]) ++
  [(TEvent.challenge, challenge), (TEvent.pubkey, pubkeyS)]

/-- The final transcript checksum of a `vectors` run: the left fold of the
update function over exactly the bytes of `transcriptUpdates`, starting
from the all-zero initial checksum (`upd cksum b` abstracts the successful
result of `update_checksum`). -/
def transcriptChecksum (upd : Bytes → Bytes → Bytes) (cksumlen : Nat)
    (skip_support : Bool) (rejected_challenge : Option Bytes)
    (support challenge pubkeyS : Bytes) : Bytes :=
  ((transcriptUpdates skip_support rejected_challenge support challenge pubkeyS).map
    Prod.snd).foldl upd (List.replicate cksumlen 0)

/-- Python truthiness of the `rejected_challenge` argument
(`if rejected_challenge:`): `None` and the empty string are falsy. -/
def rejectedTruthy (rejected_challenge : Option Bytes) : Bool :=
  match rejected_challenge with
  | none => false
  | some r => !r.isEmpty

/-- Model of `ec.mul(pt, k)`: scalar multiplication in the abstract
elliptic-curve group. -/
def ecMul {P : Type} [AddCommGroup P] (pt : P) (k : Nat) : P := k • pt

/-- Model of `ec.add(x, y)`: point addition. -/
def ecAdd {P : Type} [AddCommGroup P] (x y : P) : P := x + y

/-- Model of `ec.neg(x)`: point negation. -/
def ecNeg {P : Type} [AddCommGroup P] (x : P) : P := -x

/-- The public value `T = ec.add(ec.mul(M, w), ec.mul(G, x))` computed by
`vectors`. -/
def spakeT {P : Type} [AddCommGroup P] (G M : P) (w x : Nat) : P :=
  ecAdd (ecMul M w) (ecMul G x)

/-- The peer public value `S = ec.add(ec.mul(N, w), ec.mul(G, y))` computed
by `vectors`. -/
def spakeS {P : Type} [AddCommGroup P] (G N : P) (w y : Nat) : P :=
  ecAdd (ecMul N w) (ecMul G y)

/-- The shared-point computation `ec.mul(ec.add(S, ec.neg(ec.mul(N, w))), x)`
checked by the first cross-check assertion of `vectors`. -/
def sharedFromS {P : Type} [AddCommGroup P] (S N : P) (w x : Nat) : P :=
  ecMul (ecAdd S (ecNeg (ecMul N w))) x

/-- The shared-point computation `ec.mul(ec.add(T, ec.neg(ec.mul(M, w))), y)`
checked by the second cross-check assertion of `vectors`. -/
def sharedFromT {P : Type} [AddCommGroup P] (T M : P) (w y : Nat) : P :=
  ecMul (ecAdd T (ecNeg (ecMul M w))) y

/-- A concrete instantiation of the abstract block cipher for witnesses:
the identity permutation on blocks (every block maps to itself, under any
key).  It is its own inverse and preserves block length. -/
def idCipher : Bytes → Bytes → Bytes := fun _ b => b

/-- A concrete instantiation of the abstract HMAC-SHA1 for witnesses: a
constant 20-byte digest. -/
def constHash : Bytes → Bytes → Bytes := fun _ _ => List.replicate 20 0

/-- A concrete instantiation of the abstract PBKDF2 for witnesses: `dklen`
zero bytes. -/
def zeroKdf : Bytes → Bytes → Nat → Nat → Bytes := fun _ _ dklen _ => List.replicate dklen 0

/-! ## Helper lemmas -/

/-- A value shifted left by a byte has no bits in the low byte. -/
lemma shiftLeft8_and_255 (y : Nat) : (y <<< 8) &&& 255 = 0 := by
  have h : (255 : Nat) = 2 ^ 8 - 1 := rfl
  rw [Nat.shiftLeft_eq, h, Nat.and_pow_two_sub_one_eq_mod]
  simp [Nat.mul_mod_left]

/-- Rotating by zero bits is the identity. -/
lemma rotate_right_zero (s : Bytes) : rotate_right s 0 = s := by
  unfold rotate_right
  simp only [Nat.zero_div, Nat.zero_mod, Nat.sub_zero, Nat.shiftRight_zero,
    shiftLeft8_and_255, Nat.or_zero]
  apply List.ext_getElem
  · simp
  · intro i h1 h2
    simp only [List.getElem_map, List.getElem_range]
    have h3 : i < s.length := by simpa using h1
    rw [Nat.add_mod_right, Nat.mod_eq_of_lt h3]
    simp [List.getD_eq_getElem?_getD, List.getElem?_eq_getElem h3]

/-- C7: for every non-empty byte string `s`, `_nfold(s, len(s))` returns
`s` itself: the computation goes through the normal rotate/concatenate/sum
path with a single chunk and zero rotation, and that path is value-wise the
identity. -/
theorem nfold_same_length_identity (s : Bytes) (h : s ≠ []) :
    _nfold s s.length = s := by
  have hn : 0 < s.length := List.length_pos.mpr h
  have hr : List.range 1 = [0] := rfl
  unfold _nfold
  simp only [Nat.gcd_self, Nat.mul_div_cancel _ hn, Nat.div_self hn, hr,
    List.map_cons, List.map_nil, List.flatten, List.append_nil, Nat.zero_mul,
    Nat.mul_zero, List.drop_zero, rotate_right_zero, List.take_length, List.foldl_nil]

/-- Witness for C7 at a concrete input. -/
theorem nfold_same_length_identity_witness :
    _nfold [1, 2, 3] 3 = [1, 2, 3] :=
  nfold_same_length_identity [1, 2, 3] (by decide)

/-- C3 (refuting): `_AES128CTS` inherits `enctype = 18` from `_AESEnctype`
instead of defining `enctype = 17`, so the public `random_to_key(17, seed)`
wraps the seed as a Key tagged 18, not 17, and `derive` under the AES128
profile tags every derived key 18 regardless of the base key's tag. -/
theorem aes128_random_to_key_wrong_tag :
    random_to_key 17 (List.replicate 16 0) =
      Except.ok (Key.mk 18 (List.replicate 16 0)) ∧
    (∀ (E : Bytes → Bytes → Bytes) (key : Key) (c : Bytes),
      (derive E _AES128CTS key c).enctype = 18) ∧
    (18 : Nat) ≠ 17 := by
  refine ⟨rfl, fun E key c => rfl, by decide⟩

/-- C8: in every abelian group, with `T = M*w + G*x` and `S = N*w + G*y`,
the two shared-point computations `(S - N*w)*x` and `(T - M*w)*y` asserted
equal by `vectors` both equal `G` scaled by `x * y`. -/
theorem spake_shared_point_cross_check {P : Type} [AddCommGroup P]
    (G M N : P) (w x y : Nat) :
    sharedFromS (spakeS G N w y) N w x = ecMul G (x * y) ∧
    sharedFromT (spakeT G M w x) M w y = ecMul G (x * y) := by
  constructor
  · unfold sharedFromS spakeS ecMul ecAdd ecNeg
    have h1 : (w • N + y • G) + -(w • N) = y • G := by abel
    rw [h1, smul_smul]
  · unfold sharedFromT spakeT ecMul ecAdd ecNeg
    have h2 : (w • M + x • G) + -(w • M) = x • G := by abel
    rw [h2, smul_smul, Nat.mul_comm]

/-- C4 (refuting): in the accepted-optimistic-challenge run
(`skip_support=True`, no rejected challenge) neither the rejected-optimistic
update (a) nor the support update (b) occurs, and in the
rejected-optimistic-challenge run (a non-empty `rejected_challenge` with
`skip_support` left False) both occur.  Both runs are performed by the
driver and permitted by the `assert`, so it is not the case that exactly
one of (a)/(b) occurs in every run. -/
theorem transcript_not_exactly_one_initial_update :
    ¬ (((transcriptUpdates true none [1] [2] [3]).map Prod.fst).count TEvent.optimistic +
       ((transcriptUpdates true none [1] [2] [3]).map Prod.fst).count TEvent.support = 1) ∧
    ¬ (((transcriptUpdates false (some [9]) [1] [2] [3]).map Prod.fst).count
         TEvent.optimistic +
       ((transcriptUpdates false (some [9]) [1] [2] [3]).map Prod.fst).count
         TEvent.support = 1) := by
  decide

/-- C4 (amended): in every `vectors` run, the rejected-optimistic update
(a) occurs exactly when a (non-empty) rejected challenge is present and the
support update (b) occurs exactly when support is not skipped — so the
rejected-optimistic run performs both (a) and (b), the normal run only (b),
and the accepted-optimistic run neither — always followed by the challenge
update (c) and then the peer-public-point update (d), in that order. -/
theorem transcript_update_structure (skip : Bool) (rej : Option Bytes)
    (support challenge pubkeyS : Bytes) :
    (transcriptUpdates skip rej support challenge pubkeyS).map Prod.fst =
      (if rejectedTruthy rej then [TEvent.optimistic] else []) ++
      (if skip then [] else [TEvent.support]) ++ [TEvent.challenge, TEvent.pubkey] ∧
    ((transcriptUpdates skip rej support challenge pubkeyS).map Prod.fst).count
        TEvent.optimistic = (if rejectedTruthy rej then 1 else 0) ∧
    ((transcriptUpdates skip rej support challenge pubkeyS).map Prod.fst).count
        TEvent.support = (if skip then 0 else 1) ∧
    ((transcriptUpdates skip rej support challenge pubkeyS).map Prod.fst).count
        TEvent.challenge = 1 ∧
    ((transcriptUpdates skip rej support challenge pubkeyS).map Prod.fst).count
        TEvent.pubkey = 1 := by
  cases rej with
  | none =>
      cases skip <;>
        simp [transcriptUpdates, rejectedTruthy, List.count_cons, List.count_nil]
  | some r =>
      cases hre : r.isEmpty <;> cases skip <;>
        simp [transcriptUpdates, rejectedTruthy, hre, List.count_cons, List.count_nil]

/-- `basic_encrypt` reads the key only through its `contents` field. -/
lemma basic_encrypt_contents (E : Bytes → Bytes → Bytes) (k1 k2 : Key)
    (h : k1.contents = k2.contents) (p : Bytes) :
    basic_encrypt E k1 p = basic_encrypt E k2 p := by
  unfold basic_encrypt
  rw [h]

/-- `deriveLoop` reads the key only through its `contents` field. -/
lemma deriveLoop_contents (E : Bytes → Bytes → Bytes) (k1 k2 : Key)
    (h : k1.contents = k2.contents) (seedsize : Nat) :
    ∀ (fuel : Nat) (plaintext rndseed : Bytes),
      deriveLoop E k1 seedsize fuel plaintext rndseed =
        deriveLoop E k2 seedsize fuel plaintext rndseed := by
  intro fuel
  induction fuel with
  | zero => intro plaintext rndseed; rfl
  | succ n ih =>
      intro plaintext rndseed
      simp only [deriveLoop, basic_encrypt_contents E k1 k2 h plaintext]
      by_cases hl : rndseed.length < seedsize
      · simp only [hl, if_true, ih]
      · simp only [hl, if_false]

/-- `derive` reads the base key only through its `contents` field; the
derived key's tag comes from the profile alone. -/
lemma derive_contents (E : Bytes → Bytes → Bytes) (cls : Profile) (k1 k2 : Key)
    (h : k1.contents = k2.contents) (c : Bytes) :
    derive E cls k1 c = derive E cls k2 c := by
  simp only [derive, deriveLoop_contents E k1 k2 h]

/-- C10: `make_checksum` and `verify_checksum` never read the key's
`enctype` tag: two keys with identical contents but different enctype tags
produce identical MACs and identical verification results, for every
cksumtype — the derivation profile is selected by the cksumtype alone, so a
key tagged with a mismatched enctype is silently accepted. -/
theorem checksum_ignores_key_enctype (E H : Bytes → Bytes → Bytes) (cksumtype : Nat)
    (k1 k2 : Key) (keyusage : Nat) (text mac : Bytes)
    (hc : k1.contents = k2.contents) (hne : k1.enctype ≠ k2.enctype) :
    make_checksum E H cksumtype k1 keyusage text =
      make_checksum E H cksumtype k2 keyusage text ∧
    verify_checksum E H cksumtype k1 keyusage text mac =
      verify_checksum E H cksumtype k2 keyusage text mac := by
  have hcs : ∀ c : ChecksumProfile,
      checksum E H c k1 keyusage text = checksum E H c k2 keyusage text := by
    intro c
    unfold checksum
    rw [derive_contents E c.enc k1 k2 hc]
  constructor
  · cases hp : _get_checksum_profile cksumtype with
    | error e => simp [make_checksum, hp]
    | ok c => simp [make_checksum, hp, hcs c]
  · cases hp : _get_checksum_profile cksumtype with
    | error e => simp [verify_checksum, hp]
    | ok c => simp [verify_checksum, verify, hp, hcs c]

/-- Witness for C10 at concrete keys with equal contents and different
tags. -/
theorem checksum_ignores_key_enctype_witness :
    make_checksum idCipher constHash 15 (Key.mk 17 (List.replicate 16 0)) 3 [1] =
      make_checksum idCipher constHash 15 (Key.mk 18 (List.replicate 16 0)) 3 [1] :=
  (checksum_ignores_key_enctype idCipher constHash 15
    (Key.mk 17 (List.replicate 16 0)) (Key.mk 18 (List.replicate 16 0)) 3 [1] []
    rfl (by decide)).1

/-- Profile-level form of C5: `decrypt` raises the ciphertext-too-short
error exactly when the ciphertext is shorter than `blocksize + macsize`
bytes (stated for profiles with padding multiple 1, which covers both AES
profiles). -/
lemma decrypt_too_short_iff_profile (E D H : Bytes → Bytes → Bytes) (cls : Profile)
    (key : Key) (keyusage : Nat) (ct : Bytes) (hps : cls.padsize = 1) :
    (decrypt E D H cls key keyusage ct = Except.error "ciphertext too short" ↔
      ct.length < cls.blocksize + cls.macsize) := by
  by_cases hlen : ct.length < cls.blocksize + cls.macsize
  · simp [decrypt, hlen]
  · simp only [decrypt, hlen, if_false, iff_false]
    simp only [hps, Nat.mod_one, ne_eq, not_true_eq_false, if_false]
    split
    · intro hcontra
      simp at hcontra
    · intro hcontra
      simp at hcontra

/-- C5: for every key of a supported enctype (both of which have
`blocksize + macsize = 16 + 12 = 28`), the public `decrypt` raises the
ciphertext-too-short error exactly when the ciphertext is shorter than 28
bytes; longer ciphertexts never trigger this error. -/
theorem decrypt_too_short_error_iff (E D H : Bytes → Bytes → Bytes) (key : Key)
    (keyusage : Nat) (ct : Bytes) (h : key.enctype = 17 ∨ key.enctype = 18) :
    (decryptTop E D H key keyusage ct = Except.error "ciphertext too short" ↔
      ct.length < 28) := by
  rcases h with h | h <;>
    · simp only [decryptTop, h, _get_enctype_profile, if_true, if_false,
        reduceIte]
      exact decrypt_too_short_iff_profile E D H _ key keyusage ct rfl

/-- Witness for C5: the empty ciphertext is rejected as too short. -/
theorem decrypt_too_short_error_iff_witness :
    decryptTop idCipher idCipher constHash (Key.mk 17 (List.replicate 16 0)) 2 [] =
      Except.error "ciphertext too short" :=
  (decrypt_too_short_error_iff idCipher idCipher constHash
    (Key.mk 17 (List.replicate 16 0)) 2 [] (Or.inl rfl)).mpr (by decide)

/-- Profile-level form of C9: for a profile with padding multiple 1, the
padding-requirement branch of `decrypt` is unreachable, so the only errors
are ciphertext-too-short and integrity failure. -/
lemma decrypt_errors_profile (E D H : Bytes → Bytes → Bytes) (cls : Profile)
    (key : Key) (keyusage : Nat) (ct : Bytes) (e : String) (hps : cls.padsize = 1)
    (herr : decrypt E D H cls key keyusage ct = Except.error e) :
    e = "ciphertext too short" ∨ e = "ciphertext integrity failure" := by
  by_cases hlen : ct.length < cls.blocksize + cls.macsize
  · simp [decrypt, hlen] at herr
    exact Or.inl herr.symm
  · simp only [decrypt, hlen, if_false, hps, Nat.mod_one, ne_eq,
      not_true_eq_false, if_false] at herr
    split at herr
    · simp at herr
      exact Or.inr herr.symm
    · simp at herr

/-- C9: for keys of the supported enctypes (padding multiple 1), the
public `decrypt` never raises the invalid-padding error: any error it
returns is ciphertext-too-short or integrity failure. -/
theorem decrypt_error_taxonomy (E D H : Bytes → Bytes → Bytes) (key : Key)
    (keyusage : Nat) (ct : Bytes) (e : String)
    (h : key.enctype = 17 ∨ key.enctype = 18)
    (herr : decryptTop E D H key keyusage ct = Except.error e) :
    e = "ciphertext too short" ∨ e = "ciphertext integrity failure" := by
  rcases h with h | h <;>
    · simp only [decryptTop, h, _get_enctype_profile, if_true, if_false,
        reduceIte] at herr
      exact decrypt_errors_profile E D H _ key keyusage ct e rfl herr

/-- Witness for C9 at a concrete erroring input. -/
theorem decrypt_error_taxonomy_witness :
    "ciphertext too short" = "ciphertext too short" ∨
      "ciphertext too short" = "ciphertext integrity failure" :=
  decrypt_error_taxonomy idCipher idCipher constHash
    (Key.mk 17 (List.replicate 16 0)) 2 [] "ciphertext too short" (Or.inl rfl)
    rfl

/-- C6: for every supported enctype, `string_to_key` equals `derive`
applied with the literal label `"kerberos"` to the Key formed from
`PBKDF2(password, salt, seedsize, iterations)`, where `iterations` is the
4-byte big-endian unsigned integer held in `params`, defaulting to 4096
(`'\x00\x00\x10\x00'`) when `params` is absent. -/
theorem string_to_key_pbkdf2_then_derive (E : Bytes → Bytes → Bytes)
    (kdf : Bytes → Bytes → Nat → Nat → Bytes) (enctype : Nat)
    (password salt : Bytes) (cls : Profile)
    (hcls : _get_enctype_profile enctype = Except.ok cls) :
    string_to_key E kdf enctype password salt none =
      Except.ok (derive E cls
        (Key.mk cls.enctype (kdf password salt cls.seedsize 4096)) kerberosConst) ∧
    ∀ p : Bytes, p.length = 4 →
      string_to_key E kdf enctype password salt (some p) =
        Except.ok (derive E cls
          (Key.mk cls.enctype (kdf password salt cls.seedsize
            (p.getD 0 0 * 2 ^ 24 + p.getD 1 0 * 2 ^ 16 + p.getD 2 0 * 2 ^ 8 + p.getD 3 0)))
          kerberosConst) := by
  constructor
  · simp only [string_to_key, hcls, string_to_key_aes]
    norm_num [unpack_L]
  · intro p hp
    have hne : p.isEmpty = false := by
      cases p with
      | nil => simp at hp
      | cons a t => rfl
    simp only [string_to_key, hcls, string_to_key_aes, hne, Bool.false_eq_true,
      if_false, unpack_L, hp, if_true, reduceIte]

/-- Witness for C6 at a concrete enctype, password and parameter string. -/
theorem string_to_key_pbkdf2_then_derive_witness :
    string_to_key idCipher zeroKdf 17 [112] [115] none =
      Except.ok (derive idCipher _AES128CTS
        (Key.mk _AES128CTS.enctype (zeroKdf [112] [115] _AES128CTS.seedsize 4096))
        kerberosConst) :=
  (string_to_key_pbkdf2_then_derive idCipher zeroKdf 17 [112] [115] _AES128CTS rfl).1

/-- Length of a pointwise xor. -/
lemma xorbytes_length (a b : Bytes) : (_xorbytes a b).length = min a.length b.length := by
  simp [_xorbytes]

/-- Xoring a value back out: `(a ^ b) ^ a = b` pointwise, for equal
lengths. -/
lemma xorbytes_xorbytes_cancel (a : Bytes) :
    ∀ b : Bytes, a.length = b.length → _xorbytes (_xorbytes a b) a = b := by
  induction a with
  | nil =>
      intro b hb
      cases b with
      | nil => rfl
      | cons y ys => simp at hb
  | cons x xs ih =>
      intro b hb
      cases b with
      | nil => simp at hb
      | cons y ys =>
          simp only [_xorbytes, List.zipWith_cons_cons, List.cons.injEq] at ih ⊢
          refine ⟨?_, ih ys (by simpa using hb)⟩
          rw [Nat.xor_comm x y, Nat.xor_assoc, Nat.xor_self, Nat.xor_zero]

/-- Xoring with zero bytes on the left is the identity. -/
lemma xorbytes_zero_left (b : Bytes) (n : Nat) (h : b.length = n) :
    _xorbytes (List.replicate n 0) b = b := by
  subst h
  induction b with
  | nil => rfl
  | cons y ys ih =>
      simp only [List.length_cons, List.replicate_succ, _xorbytes,
        List.zipWith_cons_cons, Nat.zero_xor] at ih ⊢
      rw [ih]

/-- Xoring with zero bytes on the right is the identity. -/
lemma xorbytes_zero_right (a : Bytes) (n : Nat) (h : a.length = n) :
    _xorbytes a (List.replicate n 0) = a := by
  subst h
  induction a with
  | nil => rfl
  | cons x xs ih =>
      simp only [List.length_cons, List.replicate_succ, _xorbytes,
        List.zipWith_cons_cons, Nat.xor_zero] at ih ⊢
      rw [ih]

/-- `toBlocks16` on the empty string. -/
lemma toBlocks16_nil : toBlocks16 [] = [] := by
  rw [toBlocks16]
  simp

/-- Unfolding equation of `toBlocks16` on a non-empty string. -/
lemma toBlocks16_cons (s : Bytes) (h : s ≠ []) :
    toBlocks16 s = s.take 16 :: toBlocks16 (s.drop 16) := by
  rw [toBlocks16]
  simp [h]

/-- A non-empty string of at most one block is a single chunk. -/
lemma toBlocks16_small (s : Bytes) (h1 : s ≠ []) (h2 : s.length ≤ 16) :
    toBlocks16 s = [s] := by
  rw [toBlocks16_cons s h1, List.take_of_length_le h2, List.drop_eq_nil_of_le h2,
    toBlocks16_nil]

/-- Chunking peels off a leading full block. -/
lemma toBlocks16_append16 (b s : Bytes) (hb : b.length = 16) :
    toBlocks16 (b ++ s) = b :: toBlocks16 s := by
  have hne : b ++ s ≠ [] := by
    intro hc
    have := congrArg List.length hc
    simp [hb] at this
  rw [toBlocks16_cons _ hne, List.take_left' hb, List.drop_left' hb]

/-- Chunking a flattened list of full blocks followed by a tail. -/
lemma toBlocks16_flatten_append (bs : List Bytes) (t : Bytes)
    (hbs : ∀ x ∈ bs, x.length = 16) :
    toBlocks16 (bs.flatten ++ t) = bs ++ toBlocks16 t := by
  induction bs with
  | nil => simp
  | cons b rest ih =>
      simp only [List.flatten_cons, List.append_assoc, List.cons_append]
      rw [toBlocks16_append16 _ _ (hbs b (by simp)),
        ih (fun x hx => hbs x (by simp [hx]))]

/-- The flattening of a list of full blocks has length `16 *` the count. -/
lemma flatten_length_16 (bs : List Bytes) (hbs : ∀ x ∈ bs, x.length = 16) :
    bs.flatten.length = 16 * bs.length := by
  induction bs with
  | nil => simp
  | cons b rest ih =>
      simp only [List.flatten_cons, List.length_append, List.length_cons,
        hbs b (by simp), ih (fun x hx => hbs x (by simp [hx]))]
      ring

/-- Chunking a string of exactly `16 * n` bytes: `n` chunks, all full, and
flattening recovers the string. -/
lemma toBlocks16_full :
    ∀ (n : Nat) (s : Bytes), s.length = 16 * n →
      (toBlocks16 s).length = n ∧ (∀ b ∈ toBlocks16 s, b.length = 16) ∧
        (toBlocks16 s).flatten = s := by
  intro n
  induction n with
  | zero =>
      intro s hs
      have : s = [] := List.length_eq_zero.mp (by omega)
      subst this
      simp [toBlocks16_nil]
  | succ m ih =>
      intro s hs
      have hne : s ≠ [] := by
        intro hc
        subst hc
        simp at hs
      have h16 : 16 ≤ s.length := by omega
      have hdrop : (s.drop 16).length = 16 * m := by
        simp [List.length_drop, hs]
        omega
      obtain ⟨ih1, ih2, ih3⟩ := ih (s.drop 16) hdrop
      rw [toBlocks16_cons s hne]
      refine ⟨by simp [ih1], ?_, ?_⟩
      · intro b hb
        rcases List.mem_cons.mp hb with hb | hb
        · subst hb
          simp [List.length_take]
          omega
        · exact ih2 b hb
      · simp [ih3]

/-- The default-carrying last element of a list of full blocks is a full
block. -/
lemma getLastD_length_16 (l : List Bytes) (d : Bytes)
    (hl : ∀ c ∈ l, c.length = 16) (hd : d.length = 16) :
    (l.getLastD d).length = 16 := by
  induction l generalizing d with
  | nil => exact hd
  | cons a t ih =>
      rw [List.getLastD_cons]
      exact ih a (fun c hc => hl c (by simp [hc])) (hl a (by simp))

/-- Indexing just past a prefix of known length. -/
lemma getD_middle (l1 : List Bytes) (x : Bytes) (l2 : List Bytes) (d : Bytes) :
    (l1 ++ x :: l2).getD l1.length d = x := by
  induction l1 with
  | nil => rfl
  | cons a t ih => simpa using ih

/-- CBC encryption produces one ciphertext block per plaintext block. -/
lemma cbcEnc_length (E : Bytes → Bytes) (iv : Bytes) (bs : List Bytes) :
    (cbcEnc E iv bs).length = bs.length := by
  induction bs generalizing iv with
  | nil => rfl
  | cons b rest ih => simp [cbcEnc, ih]

/-- With a length-preserving block cipher, a 16-byte IV and full plaintext
blocks, every CBC ciphertext block is a full block. -/
lemma cbcEnc_blocks_length (E : Bytes → Bytes)
    (hE : ∀ b : Bytes, b.length = 16 → (E b).length = 16) (bs : List Bytes) :
    ∀ iv : Bytes, iv.length = 16 → (∀ b ∈ bs, b.length = 16) →
      ∀ c ∈ cbcEnc E iv bs, c.length = 16 := by
  induction bs with
  | nil =>
      intro iv hiv hbs c hc
      simp [cbcEnc] at hc
  | cons b rest ih =>
      intro iv hiv hbs c hc
      have hxor : (_xorbytes iv b).length = 16 := by
        simp [xorbytes_length, hiv, hbs b (by simp)]
      have hcblock : (E (_xorbytes iv b)).length = 16 := hE _ hxor
      simp only [cbcEnc, List.mem_cons] at hc
      rcases hc with hc | hc
      · rw [hc]; exact hcblock
      · exact ih _ hcblock (fun x hx => hbs x (by simp [hx])) c hc

/-- CBC encryption of an appended block list splits at the boundary, the
second part chained from the last ciphertext block of the first. -/
lemma cbcEnc_append (E : Bytes → Bytes) (xs : List Bytes) :
    ∀ (iv : Bytes) (ys : List Bytes),
      cbcEnc E iv (xs ++ ys) =
        cbcEnc E iv xs ++ cbcEnc E ((cbcEnc E iv xs).getLastD iv) ys := by
  induction xs with
  | nil => intro iv ys; rfl
  | cons x rest ih =>
      intro iv ys
      simp only [List.cons_append, cbcEnc, List.getLastD_cons, List.append_eq]
      rw [ih]

/-- The CBC-decryption loop inverts CBC encryption on full blocks,
returning the concatenated plaintext and the last ciphertext block (the IV
when there are no blocks). -/
lemma cbcDecChain_cbcEnc (E D : Bytes → Bytes)
    (hED : ∀ b : Bytes, b.length = 16 → D (E b) = b)
    (hE : ∀ b : Bytes, b.length = 16 → (E b).length = 16) (bs : List Bytes) :
    ∀ iv : Bytes, iv.length = 16 → (∀ b ∈ bs, b.length = 16) →
      cbcDecChain D iv (cbcEnc E iv bs) =
        (bs.flatten, (cbcEnc E iv bs).getLastD iv) := by
  induction bs with
  | nil =>
      intro iv hiv hbs
      rfl
  | cons b rest ih =>
      intro iv hiv hbs
      have hb : b.length = 16 := hbs b (by simp)
      have hxor : (_xorbytes iv b).length = 16 := by
        simp [xorbytes_length, hiv, hb]
      have hcblock : (E (_xorbytes iv b)).length = 16 := hE _ hxor
      simp only [cbcEnc, cbcDecChain, List.getLastD_cons]
      rw [ih _ hcblock (fun x hx => hbs x (by simp [hx]))]
      simp only [List.flatten_cons, Prod.mk.injEq, and_true]
      rw [hED _ hxor, xorbytes_xorbytes_cancel iv b (by rw [hiv, hb])]

/-- Zero padding to a multiple of one is the identity. -/
lemma zeropad_one (s : Bytes) : _zeropad s 1 = s := by
  simp [_zeropad, Nat.mod_one]

/-- Length of zero padding to a block boundary. -/
lemma zeropad16_length (s : Bytes) :
    (_zeropad s 16).length = s.length + (16 - s.length % 16) % 16 := by
  simp [_zeropad]

/-- Pointwise xor commutes with `take`. -/
lemma xorbytes_take (a b : Bytes) (n : Nat) :
    (_xorbytes a b).take n = _xorbytes (a.take n) (b.take n) := by
  simp [_xorbytes, List.take_zipWith]

/-- Pointwise xor commutes with `drop`. -/
lemma xorbytes_drop (a b : Bytes) (n : Nat) :
    (_xorbytes a b).drop n = _xorbytes (a.drop n) (b.drop n) := by
  simp [_xorbytes, List.drop_zipWith]

/-- Core round-trip fact: modelling AES as an abstract block-cipher
permutation (`D k` inverts `E k` on 16-byte blocks and `E k` preserves
block length), the CTS decryption routine `basic_decrypt` is the exact
inverse of the CTS encryption routine `basic_encrypt`, for every key and
every plaintext of at least one block. -/
lemma basic_roundtrip (E D : Bytes → Bytes → Bytes) (key : Key)
    (p : Bytes) (hlen : 16 ≤ p.length)
    (hED : ∀ k b : Bytes, b.length = 16 → D k (E k b) = b)
    (hE : ∀ k b : Bytes, b.length = 16 → (E k b).length = 16) :
    basic_decrypt D key (basic_encrypt E key p) = p := by
  have hEDk : ∀ b : Bytes, b.length = 16 → D key.contents (E key.contents b) = b :=
    hED key.contents
  have hEk16 : ∀ b : Bytes, b.length = 16 → (E key.contents b).length = 16 :=
    hE key.contents
  have hiv : (List.replicate 16 0 : Bytes).length = 16 := by simp
  rcases Nat.lt_or_ge 16 p.length with hp | hp
  case inr =>
    -- single-block case: p.length = 16
    have hp16 : p.length = 16 := le_antisymm hp hlen
    have hz : _zeropad p 16 = p := by
      have hm : p.length % 16 = 0 := by omega
      simp [_zeropad, hm]
    have hpne : p ≠ [] := by
      intro hc
      rw [hc] at hp16
      simp at hp16
    have hblocks : toBlocks16 p = [p] := toBlocks16_small p hpne (by omega)
    have hxorlen : (_xorbytes (List.replicate 16 0) p).length = 16 := by
      simp [xorbytes_length, hp16]
    have hct : basic_encrypt E key p =
        E key.contents (_xorbytes (List.replicate 16 0) p) := by
      simp only [basic_encrypt, hz, hblocks, cbcEnc, List.flatten_cons,
        List.flatten_nil, List.append_nil, hp16]
      simp
    rw [hct, basic_decrypt, if_pos (hEk16 _ hxorlen), hEDk _ hxorlen,
      xorbytes_zero_left p 16 hp16]
  case inl =>
    -- multi-block case: 16 < p.length
    have hplen := zeropad16_length p
    set padded := _zeropad p 16 with hpadded
    have hdvd : padded.length % 16 = 0 := by omega
    have hn : padded.length = 16 * (padded.length / 16) := by omega
    set n := padded.length / 16 with hndef
    have hn2 : 2 ≤ n := by omega
    obtain ⟨hPlen, hPblocks, hPflat⟩ := toBlocks16_full n padded hn
    set P := toBlocks16 padded with hP
    have hR2 : (P.drop (n - 2)).length = 2 := by
      rw [List.length_drop, hPlen]
      omega
    obtain ⟨pa, pb, hR⟩ := List.length_eq_two.mp hR2
    have hPQ : P = P.take (n - 2) ++ [pa, pb] := by
      rw [← hR, List.take_append_drop]
    set Q := P.take (n - 2) with hQ
    have hQlen : Q.length = n - 2 := by
      rw [hQ, List.length_take, hPlen]
      omega
    have hQblocks : ∀ b ∈ Q, b.length = 16 := by
      intro b hb
      exact hPblocks b (by rw [hPQ]; exact List.mem_append_left _ hb)
    have hpa : pa.length = 16 := hPblocks pa (by rw [hPQ]; simp)
    have hpb : pb.length = 16 := hPblocks pb (by rw [hPQ]; simp)
    set CQ := cbcEnc (E key.contents) (List.replicate 16 0) Q with hCQ
    have hCQlen : CQ.length = n - 2 := by
      rw [hCQ, cbcEnc_length, hQlen]
    have hCQblocks : ∀ c ∈ CQ, c.length = 16 := by
      rw [hCQ]
      exact cbcEnc_blocks_length _ hEk16 Q _ hiv hQblocks
    set prev := CQ.getLastD (List.replicate 16 0) with hprev
    have hprevlen : prev.length = 16 := getLastD_length_16 CQ _ hCQblocks hiv
    set ca := E key.contents (_xorbytes prev pa) with hca
    set cb := E key.contents (_xorbytes ca pb) with hcb
    have hcalen : ca.length = 16 := by
      rw [hca]
      exact hEk16 _ (by simp [xorbytes_length, hprevlen, hpa])
    have hcblen : cb.length = 16 := by
      rw [hcb]
      exact hEk16 _ (by simp [xorbytes_length, hcalen, hpb])
    have hCP : cbcEnc (E key.contents) (List.replicate 16 0) P = CQ ++ [ca, cb] := by
      rw [hPQ, cbcEnc_append, ← hCQ, ← hprev]
      simp only [cbcEnc, ← hca, ← hcb]
    have hCQflat : CQ.flatten.length = 16 * (n - 2) := by
      rw [flatten_length_16 CQ hCQblocks, hCQlen]
    set lastlen := if p.length % 16 = 0 then 16 else p.length % 16 with hll
    have hll1 : 1 ≤ lastlen := by
      rw [hll]
      split <;> omega
    have hll16 : lastlen ≤ 16 := by
      rw [hll]
      split <;> omega
    have hLl : p.length = 16 * (n - 1) + lastlen := by
      rw [hll]
      split <;> omega
    set ta := ca.take lastlen with hta
    have htalen : ta.length = lastlen := by
      rw [hta, List.length_take, hcalen]
      omega
    -- compute the encryption
    have htake1 : (CQ.flatten ++ (ca ++ cb)).take
        ((CQ.flatten ++ (ca ++ cb)).length - 32) = CQ.flatten := by
      apply List.take_left'
      simp [hCQflat, hcalen, hcblen]
    have hdrop1 : (CQ.flatten ++ (ca ++ cb)).drop
        ((CQ.flatten ++ (ca ++ cb)).length - 16) = cb := by
      rw [← List.append_assoc]
      apply List.drop_left'
      simp [hCQflat, hcalen, hcblen]
    have hdrop2 : (CQ.flatten ++ (ca ++ cb)).drop
        ((CQ.flatten ++ (ca ++ cb)).length - 32) = ca ++ cb := by
      apply List.drop_left'
      simp [hCQflat, hcalen, hcblen]
    have henc : basic_encrypt E key p = CQ.flatten ++ (cb ++ ta) := by
      rw [basic_encrypt, if_pos hp]
      rw [← hpadded, ← hP, hCP]
      simp only [List.flatten_append, List.flatten_cons, List.flatten_nil,
        List.append_nil]
      rw [htake1, hdrop1, hdrop2, List.take_left' hcalen, hta, ← hll,
        List.append_assoc]
    -- the stolen ciphertext has the plaintext's length
    have hstolenlen : (CQ.flatten ++ (cb ++ ta)).length = p.length := by
      simp [hCQflat, hcblen, htalen]
      omega
    -- chunking the stolen ciphertext
    have htane : ta ≠ [] := by
      intro hc
      rw [hc] at htalen
      simp at htalen
      omega
    have hcbl : toBlocks16 (CQ.flatten ++ (cb ++ ta)) = CQ ++ [cb, ta] := by
      rw [toBlocks16_flatten_append CQ _ hCQblocks,
        toBlocks16_append16 cb ta hcblen, toBlocks16_small ta htane (by omega)]
    have hcbllen : (CQ ++ [cb, ta]).length = n := by
      simp [hCQlen]
      omega
    have hlast : (CQ ++ [cb, ta]).getLastD [] = ta := by
      have hsplit : CQ ++ [cb, ta] = (CQ ++ [cb]) ++ [ta] := by simp
      rw [hsplit, List.getLastD_concat]
    have hfront : (CQ ++ [cb, ta]).take (n - 2) = CQ := by
      apply List.take_left'
      omega
    have hmid : (CQ ++ [cb, ta]).getD (n - 2) [] = cb := by
      have h2 : n - 2 = CQ.length := by omega
      rw [h2]
      exact getD_middle CQ cb [ta] []
    have hchain : cbcDecChain (D key.contents) (List.replicate 16 0) CQ =
        (Q.flatten, prev) := by
      rw [hCQ, cbcDecChain_cbcEnc (E key.contents) (D key.contents) hEDk hEk16 Q _
        hiv hQblocks, ← hCQ, ← hprev]
    have hxcapb : (_xorbytes ca pb).length = 16 := by
      simp [xorbytes_length, hcalen, hpb]
    have hdcb : D key.contents cb = _xorbytes ca pb := by
      rw [hcb]
      exact hEDk _ hxcapb
    -- structure of the padded plaintext
    have hpadded_eq : padded = Q.flatten ++ (pa ++ pb) := by
      rw [← hPflat, hPQ]
      simp
    have hQflat : Q.flatten.length = 16 * (n - 2) := by
      rw [flatten_length_16 Q hQblocks, hQlen]
    have hpadval : (16 - p.length % 16) % 16 = 16 - lastlen := by
      rw [hll]
      split <;> omega
    -- the padding tail of the final block
    have hpbdrop : pb.drop lastlen = List.replicate (16 - lastlen) 0 := by
      have h1 : padded.drop p.length = List.replicate (16 - lastlen) 0 := by
        rw [hpadded, _zeropad, List.drop_left' rfl, hpadval]
      have h2 : padded.drop p.length = pb.drop lastlen := by
        rw [hpadded_eq, ← List.append_assoc]
        have h3 : p.length = (Q.flatten ++ pa).length + lastlen := by
          simp [hQflat, hpa]
          omega
        rw [h3, List.drop_append]
      rw [← h2, h1]
    -- the real bytes of the final block, and the whole-plaintext assembly
    have hfinal : (Q.flatten ++ pa) ++ pb.take lastlen = p := by
      have h1 : padded.take p.length = p := by
        rw [hpadded, _zeropad]
        exact List.take_left' rfl
      have h2 : padded.take p.length = (Q.flatten ++ pa) ++ pb.take lastlen := by
        rw [hpadded_eq, ← List.append_assoc]
        have h3 : p.length = (Q.flatten ++ pa).length + lastlen := by
          simp [hQflat, hpa]
          omega
        rw [h3, List.take_append]
      rw [← h2, h1]
    -- now run the decryption
    rw [henc]
    simp only [basic_decrypt]
    rw [if_neg (by rw [hstolenlen]; omega)]
    rw [hcbl, hcbllen, hlast, htalen, hfront, hmid, hchain, hdcb]
    simp only
    -- the reassembled second-to-last block is exactly ca
    have homit : ta ++ (_xorbytes ca pb).drop lastlen = ca := by
      rw [xorbytes_drop, hpbdrop,
        xorbytes_zero_right (ca.drop lastlen) (16 - lastlen)
          (by simp [hcalen]), hta, List.take_append_drop]
    rw [homit]
    have hxprevpa : (_xorbytes prev pa).length = 16 := by
      simp [xorbytes_length, hprevlen, hpa]
    have hdca : D key.contents ca = _xorbytes prev pa := by
      rw [hca]
      exact hEDk _ hxprevpa
    rw [hdca, xorbytes_xorbytes_cancel prev pa (by rw [hprevlen, hpa])]
    -- the recovered final partial block
    have hlastp : _xorbytes ((_xorbytes ca pb).take lastlen) ta = pb.take lastlen := by
      rw [xorbytes_take, hta,
        xorbytes_xorbytes_cancel (ca.take lastlen) (pb.take lastlen)
          (by simp [hcalen, hpb])]
    rw [hlastp]
    exact hfinal

/-- C2: `basic_decrypt(key, basic_encrypt(key, plaintext)) = plaintext`
for every key and every plaintext of at least 16 bytes, with AES modelled
as an abstract block-cipher permutation — covering the single-block case,
the block-aligned multi-block case and the non-aligned case with the
swapped and truncated final two blocks. -/
theorem basic_decrypt_inverts_basic_encrypt (E D : Bytes → Bytes → Bytes) (key : Key)
    (p : Bytes) (hlen : 16 ≤ p.length)
    (hED : ∀ k b : Bytes, b.length = 16 → D k (E k b) = b)
    (hE : ∀ k b : Bytes, b.length = 16 → (E k b).length = 16) :
    basic_decrypt D key (basic_encrypt E key p) = p :=
  basic_roundtrip E D key p hlen hED hE

/-- Witness for C2 at a concrete cipher, key and 20-byte plaintext. -/
theorem basic_decrypt_inverts_basic_encrypt_witness :
    basic_decrypt idCipher (Key.mk 18 (List.replicate 32 1))
      (basic_encrypt idCipher (Key.mk 18 (List.replicate 32 1))
        (List.replicate 20 3)) = List.replicate 20 3 :=
  basic_decrypt_inverts_basic_encrypt idCipher idCipher
    (Key.mk 18 (List.replicate 32 1)) (List.replicate 20 3) (by decide)
    (fun k b hb => rfl) (fun k b hb => hb)

/-- With a length-preserving block cipher, CTS encryption preserves the
plaintext length (the defining property of ciphertext stealing). -/
lemma basic_encrypt_length (E : Bytes → Bytes → Bytes) (key : Key) (s : Bytes)
    (hlen : 16 ≤ s.length)
    (hE : ∀ k b : Bytes, b.length = 16 → (E k b).length = 16) :
    (basic_encrypt E key s).length = s.length := by
  have hplen := zeropad16_length s
  have hdvd : (_zeropad s 16).length % 16 = 0 := by omega
  have hn : (_zeropad s 16).length = 16 * ((_zeropad s 16).length / 16) := by omega
  obtain ⟨h1, h2, h3⟩ := toBlocks16_full _ _ hn
  have hblocks : ∀ c ∈ cbcEnc (E key.contents) (List.replicate 16 0)
      (toBlocks16 (_zeropad s 16)), c.length = 16 :=
    cbcEnc_blocks_length _ (hE key.contents) _ _ (by simp) h2
  have hflat : ((cbcEnc (E key.contents) (List.replicate 16 0)
      (toBlocks16 (_zeropad s 16))).flatten).length = (_zeropad s 16).length := by
    rw [flatten_length_16 _ hblocks, cbcEnc_length, h1, ← hn]
  rw [basic_encrypt]
  by_cases hgt : 16 < s.length
  · rw [if_pos hgt]
    simp only [List.length_append, List.length_take, List.length_drop, hflat]
    have hsp : s.length % 16 < 16 := by omega
    split <;> omega
  · rw [if_neg hgt]
    rw [hflat]
    omega

/-- The or-fold of the self-xor of a string leaves the accumulator
unchanged. -/
lemma mac_fold_self (m : Bytes) :
    ∀ r : Nat, (List.zipWith (fun x y => x ^^^ y) m m).foldl (fun r x => r ||| x) r = r := by
  induction m with
  | nil => intro r; rfl
  | cons x xs ih =>
      intro r
      simp only [List.zipWith_cons_cons, List.foldl_cons, Nat.xor_self, Nat.or_zero]
      exact ih r

/-- The constant-time comparison accepts equal strings. -/
lemma mac_equal_self (m : Bytes) : _mac_equal m m = true := by
  rw [_mac_equal, mac_fold_self m 0]
  rfl

/-- Profile-level form of C1: for a profile with block size 16, padding
multiple 1 and MAC size 12 (both AES profiles), authenticated decryption
inverts authenticated encryption on every caller-supplied 16-byte
confounder and non-empty plaintext, with AES abstract as in C2 and the
keyed hash producing 20-byte (SHA-1) digests. -/
lemma decrypt_encrypt_profile (E D H : Bytes → Bytes → Bytes) (cls : Profile)
    (key : Key) (keyusage : Nat) (p confounder : Bytes)
    (hbs : cls.blocksize = 16) (hps : cls.padsize = 1) (hms : cls.macsize = 12)
    (hp1 : 1 ≤ p.length) (hconf : confounder.length = 16)
    (hED : ∀ k b : Bytes, b.length = 16 → D k (E k b) = b)
    (hE : ∀ k b : Bytes, b.length = 16 → (E k b).length = 16)
    (hH : ∀ k m : Bytes, (H k m).length = 20) :
    decrypt E D H cls key keyusage (encrypt E H cls key keyusage p confounder) =
      Except.ok p := by
  simp only [encrypt, decrypt, hps, zeropad_one]
  generalize derive E cls key (pack_IB keyusage 85) = ki
  generalize derive E cls key (pack_IB keyusage 170) = ke
  have hbplen : (confounder ++ p).length = 16 + p.length := by simp [hconf]
  have hbel : (basic_encrypt E ke (confounder ++ p)).length = (confounder ++ p).length :=
    basic_encrypt_length E ke _ (by omega) hE
  have hmaclen : ((H ki.contents (confounder ++ p)).take cls.macsize).length = 12 := by
    simp [hH, hms]
  have hctlen : (basic_encrypt E ke (confounder ++ p) ++
      (H ki.contents (confounder ++ p)).take cls.macsize).length = 28 + p.length := by
    simp only [List.length_append, hbel, hbplen, hmaclen]
    omega
  rw [if_neg (by rw [hctlen, hbs, hms]; omega)]
  have htakect : (basic_encrypt E ke (confounder ++ p) ++
      (H ki.contents (confounder ++ p)).take cls.macsize).take
        ((basic_encrypt E ke (confounder ++ p) ++
          (H ki.contents (confounder ++ p)).take cls.macsize).length - cls.macsize) =
      basic_encrypt E ke (confounder ++ p) := by
    apply List.take_left'
    rw [hctlen, hms, hbel, hbplen]
    omega
  have hdropct : (basic_encrypt E ke (confounder ++ p) ++
      (H ki.contents (confounder ++ p)).take cls.macsize).drop
        ((basic_encrypt E ke (confounder ++ p) ++
          (H ki.contents (confounder ++ p)).take cls.macsize).length - cls.macsize) =
      (H ki.contents (confounder ++ p)).take cls.macsize := by
    apply List.drop_left'
    rw [hctlen, hms, hbel, hbplen]
    omega
  rw [htakect, hdropct]
  rw [if_neg (by simp [hps, Nat.mod_one])]
  rw [basic_roundtrip E D ke (confounder ++ p) (by omega) hED hE]
  rw [if_neg (by simp [mac_equal_self])]
  rw [hbs, List.drop_left' hconf]

/-- C1: for every supported enctype (17 and 18), every key of the
profile's seed size, every key-usage number, every 16-byte confounder and
every plaintext of 1 to 200 bytes, the public
`decrypt(key, usage, encrypt(key, usage, plaintext, confounder))` returns
exactly the original plaintext, with AES modelled as an abstract
block-cipher permutation and HMAC-SHA1 as an abstract 20-byte-digest keyed
hash. -/
theorem encrypt_decrypt_roundtrip (E D H : Bytes → Bytes → Bytes) (key : Key)
    (keyusage : Nat) (p confounder : Bytes)
    (hkey : key.enctype = 17 ∧ key.contents.length = 16 ∨
      key.enctype = 18 ∧ key.contents.length = 32)
    (hp1 : 1 ≤ p.length) (hp2 : p.length ≤ 200) (hconf : confounder.length = 16)
    (hED : ∀ k b : Bytes, b.length = 16 → D k (E k b) = b)
    (hE : ∀ k b : Bytes, b.length = 16 → (E k b).length = 16)
    (hH : ∀ k m : Bytes, (H k m).length = 20) :
    (encryptTop E H key keyusage p confounder).bind
      (fun ct => decryptTop E D H key keyusage ct) = Except.ok p := by
  rcases hkey with ⟨h, _⟩ | ⟨h, _⟩ <;>
    · simp only [encryptTop, decryptTop, h, _get_enctype_profile, reduceIte,
        Except.bind]
      exact decrypt_encrypt_profile E D H _ key keyusage p confounder rfl rfl rfl
        hp1 hconf hED hE hH

/-- Witness for C1 at a concrete key, usage, plaintext and confounder. -/
theorem encrypt_decrypt_roundtrip_witness :
    (encryptTop idCipher constHash (Key.mk 17 (List.replicate 16 0)) 2 [5]
        (List.replicate 16 7)).bind
      (fun ct => decryptTop idCipher idCipher constHash
        (Key.mk 17 (List.replicate 16 0)) 2 ct) = Except.ok [5] :=
  encrypt_decrypt_roundtrip idCipher idCipher constHash
    (Key.mk 17 (List.replicate 16 0)) 2 [5] (List.replicate 16 7)
    (Or.inl ⟨rfl, by simp⟩) (by simp) (by simp) (by simp)
    (fun k b hb => rfl) (fun k b hb => hb) (fun k m => by simp [constHash])
